import Mathlib

/-!
Shallow embedding of `ctmap` (src/map.go): a constant-time key-value map
backed by a slice of fixed-length byte entries. Bytes are modelled as `Nat`
(the Go `byte` range `< 256` is carried as a hypothesis where a proof needs
it), a `[]byte` as `List Nat`, and the Go slice `m.m [][]byte` as a list of
entries together with its backing capacity (observable through Go's `cap`,
and changed only by `append`; re-slicing `s[:n]` keeps the capacity).
-/

namespace Ctmap

/-- One stored entry (`[]byte` of length `keySize + valSize`): key region
`[0, keySize)` followed by the value region. -/
abbrev Entry := List Nat

/-- `subtle.ConstantTimeCompare(x, y)`: 1 when the two byte slices have the
same length and the same contents, 0 otherwise (Go returns 0 immediately on
a length mismatch, which list equality also captures). -/
def constantTimeCompare (x y : List Nat) : Nat :=
  if x = y then 1 else 0

/-- `subtle.ConstantTimeCopy(v, x, y)` as a function: the contents of the
destination `x` after the call, overwritten by `y` when `v = 1` and left
unchanged when `v = 0`. The source only calls it with `v ∈ {0,1}` and
equal-length slices. -/
def constantTimeCopy (v : Nat) (x y : List Nat) : List Nat :=
  if v = 1 then y else x

/-- Go's AND-NOT `x &^ v` as used in the source, where both operands are
always 0/1 flags (results of `ConstantTimeCompare` and OR-folds thereof):
the result is `x` with `v`'s bits cleared, i.e. 0 when `v = 1`. -/
def andNot (x v : Nat) : Nat :=
  if v = 1 then 0 else x

/-- Go's `byte(v - 1)` for a 0/1 flag `v` (src/map.go line 230): two's
complement wraparound gives 0xFF when `v = 0` and 0x00 when `v = 1`. -/
def byteOfFlagSub1 (v : Nat) : Nat :=
  (((v : Int) - 1) % 256).toNat

/-- An entry with every byte zeroed (same length). -/
def zeroEntry (e : Entry) : Entry :=
  e.map fun _ => 0

/-- The `Map` struct: `m` is the logical contents of the entry slice,
`mcap` its backing capacity (Go `cap(m.m)`), and the two fixed sizes. -/
structure Map where
  m : List Entry
  mcap : Nat
  keySize : Nat
  valSize : Nat
deriving DecidableEq, Repr

/-- `New(keySize, valSize)`: empty map, nil slice (capacity 0). -/
def New (keySize valSize : Nat) : Map :=
  { m := [], mcap := 0, keySize := keySize, valSize := valSize }

/-- `NewWithCapacity(keySize, valSize, capacity)`: empty map whose backing
storage is pre-sized for `capacity` entries. -/
def NewWithCapacity (keySize valSize capacity : Nat) : Map :=
  { m := [], mcap := capacity, keySize := keySize, valSize := valSize }

/-- `Len()`: the number of entries, duplicates counted. -/
def Map.Len (m : Map) : Nat :=
  m.m.length

/-- The panics raised by the size checks, one per offending argument
(`panic("key has invalid size")` and so on). -/
inductive SizeError where
  | key
  | val
  | oldKey
  | newKey
deriving DecidableEq, Repr

/-- Capacity of the backing array after a growing `append` of one element.
Go's exact growth strategy is runtime-specific; it is modelled here as the
documented amortized doubling for small slices. No claim depends on the
grown value, only on whether a reallocation was needed. -/
def growCap (c : Nat) : Nat :=
  if c = 0 then 1 else 2 * c

/-- `Add(key, val)`: size checks, then append the entry `key ++ val` (the
source builds a fresh buffer and copies both halves in). `append` keeps the
capacity while there is room and grows it otherwise. -/
def Map.Add (m : Map) (key val : List Nat) : Except SizeError Map :=
  if key.length ≠ m.keySize then .error .key
  else if val.length ≠ m.valSize then .error .val
  else .ok { m with
    m := m.m ++ [key ++ val],
    mcap := if m.m.length < m.mcap then m.mcap else growCap m.mcap }

/-- The loop of `Set` (src/map.go lines 91-95): for each entry compare its
key region against `key`, conditionally copy `val` into its value region
gated on that comparison alone (note: not masked by the running flag), and
OR the comparison into the running flag `v`. -/
def setScan (ks : Nat) (key val : List Nat) : Nat → List Entry → List Entry × Nat
  | v, [] => ([], v)
  | v, e :: es =>
    let vv := constantTimeCompare (e.take ks) key
    let r := setScan ks key val (v ||| vv) es
    ((e.take ks ++ constantTimeCopy vv (e.drop ks) val) :: r.1, r.2)

/-- `Set(key, val)`: size checks, then the scan; returns the new map and
the 0/1 found-flag. -/
def Map.Set (m : Map) (key val : List Nat) : Except SizeError (Map × Nat) :=
  if key.length ≠ m.keySize then .error .key
  else if val.length ≠ m.valSize then .error .val
  else
    let r := setScan m.keySize key val 0 m.m
    .ok ({ m with m := r.1 }, r.2)

/-- The loop of `Replace` (src/map.go lines 121-126): the comparison is
masked by AND-NOT of the running flag, so only the first match gates its
copies; both the key region (to `newKey`) and the value region (to `val`)
are conditionally copied. -/
def replaceScan (ks : Nat) (oldKey newKey val : List Nat) :
    Nat → List Entry → List Entry × Nat
  | v, [] => ([], v)
  | v, e :: es =>
    let vv := andNot (constantTimeCompare (e.take ks) oldKey) v
    let r := replaceScan ks oldKey newKey val (v ||| vv) es
    ((constantTimeCopy vv (e.take ks) newKey ++
      constantTimeCopy vv (e.drop ks) val) :: r.1, r.2)

/-- `Replace(oldKey, newKey, val)`: size checks, then the scan. -/
def Map.Replace (m : Map) (oldKey newKey val : List Nat) :
    Except SizeError (Map × Nat) :=
  if oldKey.length ≠ m.keySize then .error .oldKey
  else if newKey.length ≠ m.keySize then .error .newKey
  else if val.length ≠ m.valSize then .error .val
  else
    let r := replaceScan m.keySize oldKey newKey val 0 m.m
    .ok ({ m with m := r.1 }, r.2)

/-- The loop of `Rename` (src/map.go lines 147-151): like `Replace` but
only the key region is conditionally copied. -/
def renameScan (ks : Nat) (oldKey newKey : List Nat) :
    Nat → List Entry → List Entry × Nat
  | v, [] => ([], v)
  | v, e :: es =>
    let vv := andNot (constantTimeCompare (e.take ks) oldKey) v
    let r := renameScan ks oldKey newKey (v ||| vv) es
    ((constantTimeCopy vv (e.take ks) newKey ++ e.drop ks) :: r.1, r.2)

/-- `Rename(oldKey, newKey)`: size checks, then the scan. -/
def Map.Rename (m : Map) (oldKey newKey : List Nat) :
    Except SizeError (Map × Nat) :=
  if oldKey.length ≠ m.keySize then .error .oldKey
  else if newKey.length ≠ m.keySize then .error .newKey
  else
    let r := renameScan m.keySize oldKey newKey 0 m.m
    .ok ({ m with m := r.1 }, r.2)

/-- The loop of `Contains` (src/map.go lines 166-168): OR-accumulate the
comparison of every entry's key region against `key`. -/
def containsScan (ks : Nat) (key : List Nat) : Nat → List Entry → Nat
  | v, [] => v
  | v, e :: es => containsScan ks key (v ||| constantTimeCompare (e.take ks) key) es

/-- `Contains(key)`: size check, then the scan; returns the 0/1 flag. -/
def Map.Contains (m : Map) (key : List Nat) : Except SizeError Nat :=
  if key.length ≠ m.keySize then .error .key
  else .ok (containsScan m.keySize key 0 m.m)

/-- The loop of `Lookup` (src/map.go lines 191-195): masked comparison as
in `Replace`, but the conditional copy goes the other way, from the matched
entry's value region into the caller's buffer `val`. -/
def lookupScan (ks : Nat) (key : List Nat) : Nat → List Nat → List Entry → List Nat × Nat
  | v, val, [] => (val, v)
  | v, val, e :: es =>
    let vv := andNot (constantTimeCompare (e.take ks) key) v
    lookupScan ks key (v ||| vv) (constantTimeCopy vv val (e.drop ks)) es

/-- `Lookup(key, val)`: size checks, then the scan; returns the caller
buffer's contents after the call and the 0/1 flag. The map is unchanged. -/
def Map.Lookup (m : Map) (key val : List Nat) : Except SizeError (List Nat × Nat) :=
  if key.length ≠ m.keySize then .error .key
  else if val.length ≠ m.valSize then .error .val
  else .ok (lookupScan m.keySize key 0 val m.m)

/-- The body of `Delete` after the emptiness guard (src/map.go lines
219-231): over all entries but the last, OR the comparison of the (still
original) entry's key region into the running flag first, then
conditionally overwrite that entry with its successor gated on the flag;
finally fold in the comparison against the original last entry and mask
every byte of the last slot with `byte(v - 1)`. Returns the backing
storage contents (still of the original length) and the final flag. -/
def deleteScan (ks : Nat) (key : List Nat) : Nat → List Entry → List Entry × Nat
  | v, [] => ([], v)
  | v, [last] =>
    let vf := v ||| constantTimeCompare (last.take ks) key
    ([last.map fun b => b &&& byteOfFlagSub1 vf], vf)
  | v, e :: next :: rest =>
    let vv := v ||| constantTimeCompare (e.take ks) key
    let r := deleteScan ks key vv (next :: rest)
    (constantTimeCopy vv e next :: r.1, r.2)

/-- The backing storage contents right after `Delete`'s scan and zeroing,
before the truncating re-slice (what the test reads back through the saved
`mm` alias). -/
def Map.deleteStorage (m : Map) (key : List Nat) : List Entry :=
  (deleteScan m.keySize key 0 m.m).1

/-- `Delete(key)`: size check; an empty map returns 0 untouched; otherwise
run the scan and re-slice to drop the final flag's worth of entries
(`m.m = m.m[:len(m.m)-v]`, which keeps the backing capacity). -/
def Map.Delete (m : Map) (key : List Nat) : Except SizeError (Map × Nat) :=
  if key.length ≠ m.keySize then .error .key
  else if m.m = [] then .ok (m, 0)
  else
    let r := deleteScan m.keySize key 0 m.m
    .ok ({ m with m := r.1.take (r.1.length - r.2) }, r.2)

/-!
Primitive-operation counts. Each `...Ops` function retraces the control
flow of the corresponding method after its size checks, threading the same
running flag, and counts how many `ConstantTimeCompare` (first component)
and `ConstantTimeCopy` (second component) invocations the loop executes.
The loops have no data-dependent exits, so these counters follow the exact
instruction structure of src/map.go.
-/

/-- Compare/copy count of `Set`'s loop: one compare and one copy per entry. -/
def setScanOps (ks : Nat) (key : List Nat) : Nat → List Entry → Nat × Nat
  | _, [] => (0, 0)
  | v, e :: es =>
    let vv := constantTimeCompare (e.take ks) key
    let r := setScanOps ks key (v ||| vv) es
    (r.1 + 1, r.2 + 1)

/-- Compare/copy count of `Set(key, val)` on a map. -/
def Map.SetOps (m : Map) (key : List Nat) : Nat × Nat :=
  setScanOps m.keySize key 0 m.m

/-- Compare/copy count of `Replace`'s loop: one compare and two copies per
entry. -/
def replaceScanOps (ks : Nat) (oldKey : List Nat) : Nat → List Entry → Nat × Nat
  | _, [] => (0, 0)
  | v, e :: es =>
    let vv := andNot (constantTimeCompare (e.take ks) oldKey) v
    let r := replaceScanOps ks oldKey (v ||| vv) es
    (r.1 + 1, r.2 + 2)

/-- Compare/copy count of `Replace(oldKey, newKey, val)` on a map. -/
def Map.ReplaceOps (m : Map) (oldKey : List Nat) : Nat × Nat :=
  replaceScanOps m.keySize oldKey 0 m.m

/-- Compare/copy count of `Rename`'s loop: one compare and one copy per
entry. -/
def renameScanOps (ks : Nat) (oldKey : List Nat) : Nat → List Entry → Nat × Nat
  | _, [] => (0, 0)
  | v, e :: es =>
    let vv := andNot (constantTimeCompare (e.take ks) oldKey) v
    let r := renameScanOps ks oldKey (v ||| vv) es
    (r.1 + 1, r.2 + 1)

/-- Compare/copy count of `Rename(oldKey, newKey)` on a map. -/
def Map.RenameOps (m : Map) (oldKey : List Nat) : Nat × Nat :=
  renameScanOps m.keySize oldKey 0 m.m

/-- Compare/copy count of `Contains`'s loop: one compare per entry. -/
def containsScanOps (ks : Nat) (key : List Nat) : Nat → List Entry → Nat × Nat
  | _, [] => (0, 0)
  | v, e :: es =>
    let r := containsScanOps ks key (v ||| constantTimeCompare (e.take ks) key) es
    (r.1 + 1, r.2)

/-- Compare/copy count of `Contains(key)` on a map. -/
def Map.ContainsOps (m : Map) (key : List Nat) : Nat × Nat :=
  containsScanOps m.keySize key 0 m.m

/-- Compare/copy count of `Lookup`'s loop: one compare and one copy per
entry. -/
def lookupScanOps (ks : Nat) (key : List Nat) : Nat → List Entry → Nat × Nat
  | _, [] => (0, 0)
  | v, e :: es =>
    let vv := andNot (constantTimeCompare (e.take ks) key) v
    let r := lookupScanOps ks key (v ||| vv) es
    (r.1 + 1, r.2 + 1)

/-- Compare/copy count of `Lookup(key, val)` on a map. -/
def Map.LookupOps (m : Map) (key : List Nat) : Nat × Nat :=
  lookupScanOps m.keySize key 0 m.m

/-- Compare/copy count of `Delete`'s scan: one compare and one copy per
entry before the last, and one final compare against the last entry (the
byte-masked zeroing is not one of the two primitives). -/
def deleteScanOps (ks : Nat) (key : List Nat) : Nat → List Entry → Nat × Nat
  | _, [] => (0, 0)
  | _, [_] => (1, 0)
  | v, e :: next :: rest =>
    let vv := v ||| constantTimeCompare (e.take ks) key
    let r := deleteScanOps ks key vv (next :: rest)
    (r.1 + 1, r.2 + 1)

/-- Compare/copy count of `Delete(key)` on a map, including the early
return on an empty map. -/
def Map.DeleteOps (m : Map) (key : List Nat) : Nat × Nat :=
  if m.m = [] then (0, 0) else deleteScanOps m.keySize key 0 m.m

/-!
Operation traces, for the size-tracking invariant: a trace is a list of
API calls applied in order to a map.
-/

/-- One API call with its arguments. -/
inductive Op where
  | add (key val : List Nat)
  | set (key val : List Nat)
  | replace (oldKey newKey val : List Nat)
  | rename (oldKey newKey : List Nat)
  | contains (key : List Nat)
  | lookup (key val : List Nat)
  | delete (key : List Nat)

/-- An op is valid for the sizes `ks`/`vs` when every byte-slice argument
has its required length (so the call does not panic). -/
def Op.Valid (ks vs : Nat) : Op → Prop
  | .add key val => key.length = ks ∧ val.length = vs
  | .set key val => key.length = ks ∧ val.length = vs
  | .replace oldKey newKey val =>
      oldKey.length = ks ∧ newKey.length = ks ∧ val.length = vs
  | .rename oldKey newKey => oldKey.length = ks ∧ newKey.length = ks
  | .contains key => key.length = ks
  | .lookup key val => key.length = ks ∧ val.length = vs
  | .delete key => key.length = ks

/-- The map after one call. A call that panics (size error) leaves the map
untouched, exactly as the source's checks all precede any mutation;
`Contains` and `Lookup` never modify the map. -/
def applyOp (m : Map) : Op → Map
  | .add key val => match m.Add key val with | .ok m1 => m1 | .error _ => m
  | .set key val => match m.Set key val with | .ok r => r.1 | .error _ => m
  | .replace oldKey newKey val =>
      match m.Replace oldKey newKey val with | .ok r => r.1 | .error _ => m
  | .rename oldKey newKey =>
      match m.Rename oldKey newKey with | .ok r => r.1 | .error _ => m
  | .contains _ => m
  | .lookup _ _ => m
  | .delete key => match m.Delete key with | .ok r => r.1 | .error _ => m

/-- The map after a whole trace of calls. -/
def runOps (m : Map) : List Op → Map
  | [] => m
  | op :: ops => runOps (applyOp m op) ops

/-- How many `Add` calls a trace contains. -/
def countAdds : List Op → Nat
  | [] => 0
  | .add _ _ :: ops => countAdds ops + 1
  | _ :: ops => countAdds ops

/-- How many `Delete` calls of a trace return a found-flag of 1, starting
from `m` (success depends on the map state at the moment of the call). -/
def countSuccDeletes (m : Map) : List Op → Nat
  | [] => 0
  | .delete key :: ops =>
      (match m.Delete key with | .ok r => r.2 | .error _ => 0) +
        countSuccDeletes (applyOp m (.delete key)) ops
  | op :: ops => countSuccDeletes (applyOp m op) ops

/-!  Helper lemmas. -/

/-- The match predicate driving every scan: does the entry's key region
equal the probed key? -/
def keyMatch (ks : Nat) (key : List Nat) (e : Entry) : Bool :=
  e.take ks == key

theorem keyMatch_iff {ks key e} : keyMatch ks key e = true ↔ e.take ks = key := by
  simp [keyMatch]

theorem ctCompare_flag (x y : List Nat) :
    constantTimeCompare x y = 0 ∨ constantTimeCompare x y = 1 := by
  unfold constantTimeCompare
  split <;> simp

theorem ctCompare_eq_one {x y : List Nat} (h : x = y) : constantTimeCompare x y = 1 := by
  simp [constantTimeCompare, h]

theorem ctCompare_eq_zero {x y : List Nat} (h : x ≠ y) : constantTimeCompare x y = 0 := by
  simp [constantTimeCompare, h]

theorem one_lor_ctCompare (x y : List Nat) : 1 ||| constantTimeCompare x y = 1 := by
  rcases ctCompare_flag x y with h | h <;> rw [h] <;> decide

theorem byteOfFlagSub1_zero : byteOfFlagSub1 0 = 255 := by decide

theorem byteOfFlagSub1_one : byteOfFlagSub1 1 = 0 := by decide

/-- Masking a byte list with 0xFF is the identity on genuine bytes. -/
theorem map_land_255 (l : List Nat) (h : ∀ b ∈ l, b < 256) :
    (l.map fun b => b &&& 255) = l := by
  induction l with
  | nil => rfl
  | cons b l ih =>
    have hb : b < 2 ^ 8 := h b (List.mem_cons_self b l)
    have : b &&& 255 = b := by
      simpa using Nat.and_pow_two_sub_one_of_lt_two_pow hb
    simp only [List.map_cons, this]
    rw [ih fun x hx => h x (List.mem_cons_of_mem b hx)]

/-- Masking a byte list with 0x00 zeroes it. -/
theorem map_land_0 (l : List Nat) : (l.map fun b => b &&& 0) = zeroEntry l := by
  simp [zeroEntry, Nat.and_zero]

/-!  `deleteScan` structure lemmas. -/

theorem deleteScan_single (ks : Nat) (key : List Nat) (v : Nat) (last : Entry) :
    deleteScan ks key v [last] =
      ([last.map fun b => b &&& byteOfFlagSub1 (v ||| constantTimeCompare (last.take ks) key)],
       v ||| constantTimeCompare (last.take ks) key) := rfl

theorem deleteScan_cons (ks : Nat) (key : List Nat) (v : Nat) (e next : Entry)
    (rest : List Entry) :
    deleteScan ks key v (e :: next :: rest) =
      (constantTimeCopy (v ||| constantTimeCompare (e.take ks) key) e next ::
        (deleteScan ks key (v ||| constantTimeCompare (e.take ks) key) (next :: rest)).1,
       (deleteScan ks key (v ||| constantTimeCompare (e.take ks) key) (next :: rest)).2) := rfl

/-- The scan writes back as many entries as it read. -/
theorem deleteScan_length (ks : Nat) (key : List Nat) :
    ∀ (v : Nat) (es : List Entry), (deleteScan ks key v es).1.length = es.length := by
  intro v es
  induction es generalizing v with
  | nil => rfl
  | cons e es ih =>
    cases es with
    | nil => simp [deleteScan_single]
    | cons next rest => simp [deleteScan_cons, ih]

/-- The final flag is 0 or 1 whenever the running flag is. -/
theorem deleteScan_flag01 (ks : Nat) (key : List Nat) :
    ∀ (v : Nat) (es : List Entry), (v = 0 ∨ v = 1) →
      (deleteScan ks key v es).2 = 0 ∨ (deleteScan ks key v es).2 = 1 := by
  intro v es
  induction es generalizing v with
  | nil => exact fun h => h
  | cons e es ih =>
    intro hv
    have hvv : v ||| constantTimeCompare (e.take ks) key = 0 ∨
        v ||| constantTimeCompare (e.take ks) key = 1 := by
      rcases hv with h | h <;> rcases ctCompare_flag (e.take ks) key with h2 | h2 <;>
        rw [h, h2] <;> simp
    cases es with
    | nil => rw [deleteScan_single]; exact hvv
    | cons next rest => rw [deleteScan_cons]; exact ih _ hvv

/-- Once the running flag is set, every remaining position is overwritten
by its successor and the last slot is zeroed. -/
theorem deleteScan_flagged (ks : Nat) (key : List Nat) :
    ∀ (es : List Entry) (last : Entry),
      deleteScan ks key 1 (es ++ [last]) = ((es ++ [last]).tail ++ [zeroEntry last], 1) := by
  intro es last
  induction es with
  | nil =>
    rw [List.nil_append, deleteScan_single, one_lor_ctCompare, byteOfFlagSub1_one, map_land_0]
    rfl
  | cons e es ih =>
    cases es with
    | nil =>
      rw [List.cons_append, List.nil_append, deleteScan_cons, one_lor_ctCompare]
      rw [List.nil_append] at ih
      simp [ih, constantTimeCopy]
    | cons e2 es2 =>
      rw [List.cons_append, List.cons_append, deleteScan_cons, one_lor_ctCompare]
      rw [List.cons_append] at ih
      simp [ih, constantTimeCopy]

/-- Full characterization of `Delete`'s scan from a clear flag: when some
entry's key region matches, the first such entry is erased, the tail
shifted up, the (duplicated) last slot zeroed and the flag returned as 1;
otherwise the storage and flag are untouched. The byte bound on the last
entry is what makes the 0xFF mask of the no-match case the identity. -/
theorem deleteScan_spec (ks : Nat) (key : List Nat) :
    ∀ (es : List Entry) (last : Entry), (∀ b ∈ last, b < 256) →
      deleteScan ks key 0 (es ++ [last]) =
        if (es ++ [last]).any (keyMatch ks key) then
          ((es ++ [last]).eraseP (keyMatch ks key) ++ [zeroEntry last], 1)
        else (es ++ [last], 0) := by
  intro es last hwf
  induction es with
  | nil =>
    rw [List.nil_append, deleteScan_single, Nat.zero_or]
    by_cases h : last.take ks = key
    · rw [ctCompare_eq_one h, byteOfFlagSub1_one, map_land_0]
      have hp : keyMatch ks key last = true := keyMatch_iff.mpr h
      simp [hp, List.eraseP_cons_of_pos]
    · rw [ctCompare_eq_zero h, byteOfFlagSub1_zero, map_land_255 last hwf]
      have hp : ¬ keyMatch ks key last = true := by simp [keyMatch_iff, h]
      simp [hp]
  | cons e es ih =>
    by_cases h : e.take ks = key
    · have hp : keyMatch ks key e = true := keyMatch_iff.mpr h
      cases es with
      | nil =>
        simp only [List.cons_append, List.nil_append]
        rw [deleteScan_cons, Nat.zero_or, ctCompare_eq_one h]
        have hfl := deleteScan_flagged ks key [] last
        rw [List.nil_append] at hfl
        rw [hfl]
        simp [constantTimeCopy, hp, List.eraseP_cons_of_pos]
      | cons e2 es2 =>
        simp only [List.cons_append]
        rw [deleteScan_cons, Nat.zero_or, ctCompare_eq_one h]
        have hfl := deleteScan_flagged ks key (e2 :: es2) last
        simp only [List.cons_append] at hfl
        rw [hfl]
        simp [constantTimeCopy, hp, List.eraseP_cons_of_pos]
    · have hp : ¬ keyMatch ks key e = true := by simp [keyMatch_iff, h]
      cases es with
      | nil =>
        simp only [List.cons_append, List.nil_append] at ih ⊢
        rw [deleteScan_cons, Nat.zero_or, ctCompare_eq_zero h]
        rw [ih]
        by_cases h2 : keyMatch ks key last = true
        · simp [constantTimeCopy, hp, h2, List.eraseP_cons_of_neg, List.eraseP_cons_of_pos]
        · simp [constantTimeCopy, hp, h2]
      | cons e2 es2 =>
        simp only [List.cons_append] at ih ⊢
        rw [deleteScan_cons, Nat.zero_or, ctCompare_eq_zero h]
        rw [ih]
        by_cases h2 : (e2 :: (es2 ++ [last])).any (keyMatch ks key) = true
        · simp [constantTimeCopy, hp, h2, List.eraseP_cons_of_neg]
        · simp [constantTimeCopy, hp, h2]

/-!  `containsScan` and `lookupScan` lemmas. -/

theorem containsScan_one (ks : Nat) (key : List Nat) :
    ∀ es : List Entry, containsScan ks key 1 es = 1 := by
  intro es
  induction es with
  | nil => rfl
  | cons e es ih => rw [containsScan, one_lor_ctCompare]; exact ih

theorem containsScan_zero (ks : Nat) (key : List Nat) :
    ∀ es : List Entry,
      containsScan ks key 0 es = if es.any (keyMatch ks key) then 1 else 0 := by
  intro es
  induction es with
  | nil => rfl
  | cons e es ih =>
    rw [containsScan, Nat.zero_or]
    by_cases h : e.take ks = key
    · rw [ctCompare_eq_one h, containsScan_one]
      have hp : keyMatch ks key e = true := keyMatch_iff.mpr h
      simp [hp]
    · rw [ctCompare_eq_zero h, ih]
      have hp : ¬ keyMatch ks key e = true := by simp [keyMatch_iff, h]
      simp [hp]

theorem lookupScan_one (ks : Nat) (key : List Nat) :
    ∀ (es : List Entry) (val : List Nat), lookupScan ks key 1 val es = (val, 1) := by
  intro es
  induction es with
  | nil => intro val; rfl
  | cons e es ih =>
    intro val
    rw [lookupScan]
    simp only [andNot, constantTimeCopy, if_true, Nat.or_zero, reduceIte]
    exact ih val

theorem lookupScan_zero (ks : Nat) (key : List Nat) :
    ∀ (es : List Entry) (val : List Nat),
      lookupScan ks key 0 val es =
        ((es.find? (keyMatch ks key)).elim (val, 0) fun e => (e.drop ks, 1)) := by
  intro es
  induction es with
  | nil => intro val; rfl
  | cons e es ih =>
    intro val
    rw [lookupScan]
    by_cases h : e.take ks = key
    · have hp : keyMatch ks key e = true := keyMatch_iff.mpr h
      rw [ctCompare_eq_one h]
      simp only [andNot, if_neg (by decide : ¬ (0 : Nat) = 1), Nat.zero_or,
        constantTimeCopy, if_pos rfl]
      rw [lookupScan_one, List.find?_cons_of_pos es hp]
      rfl
    · have hp : ¬ keyMatch ks key e = true := by simp [keyMatch_iff, h]
      rw [ctCompare_eq_zero h]
      simp only [andNot, if_neg (by decide : ¬ (0 : Nat) = 1), Nat.or_zero,
        constantTimeCopy, if_neg (by decide : ¬ (0 : Nat) = 1)]
      rw [ih val, List.find?_cons_of_neg es hp]

/-!  `replaceScan` and `renameScan` lemmas. -/

theorem replaceScan_one (ks : Nat) (oldKey newKey val : List Nat) :
    ∀ es : List Entry, replaceScan ks oldKey newKey val 1 es = (es, 1) := by
  intro es
  induction es with
  | nil => rfl
  | cons e es ih =>
    rw [replaceScan]
    simp only [andNot, if_pos rfl, Nat.or_zero, constantTimeCopy,
      if_neg (by decide : ¬ (0 : Nat) = 1)]
    simp [ih, List.take_append_drop]

theorem renameScan_one (ks : Nat) (oldKey newKey : List Nat) :
    ∀ es : List Entry, renameScan ks oldKey newKey 1 es = (es, 1) := by
  intro es
  induction es with
  | nil => rfl
  | cons e es ih =>
    rw [renameScan]
    simp only [andNot, if_pos rfl, Nat.or_zero, constantTimeCopy,
      if_neg (by decide : ¬ (0 : Nat) = 1)]
    simp [ih, List.take_append_drop]

/-- With a clear flag and no matching entry, `Replace`'s scan rewrites
nothing. -/
theorem replaceScan_nomatch (ks : Nat) (oldKey newKey val : List Nat) :
    ∀ es : List Entry, (∀ e ∈ es, e.take ks ≠ oldKey) →
      replaceScan ks oldKey newKey val 0 es = (es, 0) := by
  intro es
  induction es with
  | nil => intro _; rfl
  | cons e es ih =>
    intro hall
    rw [replaceScan, ctCompare_eq_zero (hall e (List.mem_cons_self e es))]
    simp only [andNot, if_neg (by decide : ¬ (0 : Nat) = 1), Nat.or_zero,
      constantTimeCopy]
    rw [ih fun x hx => hall x (List.mem_cons_of_mem e hx)]
    simp [List.take_append_drop]

theorem renameScan_nomatch (ks : Nat) (oldKey newKey : List Nat) :
    ∀ es : List Entry, (∀ e ∈ es, e.take ks ≠ oldKey) →
      renameScan ks oldKey newKey 0 es = (es, 0) := by
  intro es
  induction es with
  | nil => intro _; rfl
  | cons e es ih =>
    intro hall
    rw [renameScan, ctCompare_eq_zero (hall e (List.mem_cons_self e es))]
    simp only [andNot, if_neg (by decide : ¬ (0 : Nat) = 1), Nat.or_zero,
      constantTimeCopy]
    rw [ih fun x hx => hall x (List.mem_cons_of_mem e hx)]
    simp [List.take_append_drop]

/-- With a clear flag, `Replace`'s scan rewrites exactly the first
matching entry — both its key region (to `newKey`) and its value region
(to `val`) — and leaves every other entry untouched. -/
theorem replaceScan_first (ks : Nat) (oldKey newKey val : List Nat) :
    ∀ (pre : List Entry) (e : Entry) (post : List Entry),
      (∀ x ∈ pre, x.take ks ≠ oldKey) → e.take ks = oldKey →
      replaceScan ks oldKey newKey val 0 (pre ++ e :: post) =
        (pre ++ (newKey ++ val) :: post, 1) := by
  intro pre
  induction pre with
  | nil =>
    intro e post _ he
    rw [List.nil_append, replaceScan, ctCompare_eq_one he]
    simp only [andNot, if_neg (by decide : ¬ (0 : Nat) = 1), Nat.zero_or,
      constantTimeCopy, if_pos rfl]
    rw [replaceScan_one]
    simp
  | cons x pre ih =>
    intro e post hall he
    rw [List.cons_append, replaceScan,
      ctCompare_eq_zero (hall x (List.mem_cons_self x pre))]
    simp only [andNot, if_neg (by decide : ¬ (0 : Nat) = 1), Nat.or_zero,
      constantTimeCopy]
    rw [ih e post (fun y hy => hall y (List.mem_cons_of_mem x hy)) he]
    simp [List.take_append_drop]

/-- With a clear flag, `Rename`'s scan rewrites exactly the first matching
entry's key region (to `newKey`), keeps its value region, and leaves every
other entry untouched. -/
theorem renameScan_first (ks : Nat) (oldKey newKey : List Nat) :
    ∀ (pre : List Entry) (e : Entry) (post : List Entry),
      (∀ x ∈ pre, x.take ks ≠ oldKey) → e.take ks = oldKey →
      renameScan ks oldKey newKey 0 (pre ++ e :: post) =
        (pre ++ (newKey ++ e.drop ks) :: post, 1) := by
  intro pre
  induction pre with
  | nil =>
    intro e post _ he
    rw [List.nil_append, renameScan, ctCompare_eq_one he]
    simp only [andNot, if_neg (by decide : ¬ (0 : Nat) = 1), Nat.zero_or,
      constantTimeCopy, if_pos rfl]
    rw [renameScan_one]
    simp
  | cons x pre ih =>
    intro e post hall he
    rw [List.cons_append, renameScan,
      ctCompare_eq_zero (hall x (List.mem_cons_self x pre))]
    simp only [andNot, if_neg (by decide : ¬ (0 : Nat) = 1), Nat.or_zero,
      constantTimeCopy]
    rw [ih e post (fun y hy => hall y (List.mem_cons_of_mem x hy)) he]
    simp [List.take_append_drop]

/-!  Length preservation of the in-place scans. -/

theorem setScan_length (ks : Nat) (key val : List Nat) :
    ∀ (v : Nat) (es : List Entry), (setScan ks key val v es).1.length = es.length := by
  intro v es
  induction es generalizing v with
  | nil => rfl
  | cons e es ih => simp [setScan, ih]

theorem replaceScan_length (ks : Nat) (oldKey newKey val : List Nat) :
    ∀ (v : Nat) (es : List Entry),
      (replaceScan ks oldKey newKey val v es).1.length = es.length := by
  intro v es
  induction es generalizing v with
  | nil => rfl
  | cons e es ih => simp [replaceScan, ih]

theorem renameScan_length (ks : Nat) (oldKey newKey : List Nat) :
    ∀ (v : Nat) (es : List Entry),
      (renameScan ks oldKey newKey v es).1.length = es.length := by
  intro v es
  induction es generalizing v with
  | nil => rfl
  | cons e es ih => simp [renameScan, ih]

/-!  Primitive-operation counts are a function of the entry count only. -/

theorem setScanOps_eq (ks : Nat) (key : List Nat) :
    ∀ (v : Nat) (es : List Entry), setScanOps ks key v es = (es.length, es.length) := by
  intro v es
  induction es generalizing v with
  | nil => rfl
  | cons e es ih => simp [setScanOps, ih]

theorem replaceScanOps_eq (ks : Nat) (oldKey : List Nat) :
    ∀ (v : Nat) (es : List Entry),
      replaceScanOps ks oldKey v es = (es.length, 2 * es.length) := by
  intro v es
  induction es generalizing v with
  | nil => rfl
  | cons e es ih => simp [replaceScanOps, ih]; ring

theorem renameScanOps_eq (ks : Nat) (oldKey : List Nat) :
    ∀ (v : Nat) (es : List Entry),
      renameScanOps ks oldKey v es = (es.length, es.length) := by
  intro v es
  induction es generalizing v with
  | nil => rfl
  | cons e es ih => simp [renameScanOps, ih]

theorem containsScanOps_eq (ks : Nat) (key : List Nat) :
    ∀ (v : Nat) (es : List Entry), containsScanOps ks key v es = (es.length, 0) := by
  intro v es
  induction es generalizing v with
  | nil => rfl
  | cons e es ih => simp [containsScanOps, ih]

theorem lookupScanOps_eq (ks : Nat) (key : List Nat) :
    ∀ (v : Nat) (es : List Entry), lookupScanOps ks key v es = (es.length, es.length) := by
  intro v es
  induction es generalizing v with
  | nil => rfl
  | cons e es ih => simp [lookupScanOps, ih]

theorem deleteScanOps_eq (ks : Nat) (key : List Nat) :
    ∀ (v : Nat) (es : List Entry), es ≠ [] →
      deleteScanOps ks key v es = (es.length, es.length - 1) := by
  intro v es
  induction es generalizing v with
  | nil => intro h; exact absurd rfl h
  | cons e es ih =>
    intro _
    cases es with
    | nil => rfl
    | cons next rest =>
      have := ih (v ||| constantTimeCompare (e.take ks) key) (List.cons_ne_nil next rest)
      simp [deleteScanOps, this]

theorem zeroEntry_eq_replicate (e : Entry) : zeroEntry e = List.replicate e.length 0 :=
  List.map_const' e 0

/-- C3: for every map and key of length `keySize`: when some stored
entry's key region equals the key, `Delete` returns 1, removes exactly the
first matching entry in scan order (`List.eraseP` keeps every other entry
and their relative order), and the backing-storage slot that originally
held the final entry is entirely zeroed; when no entry matches, `Delete`
returns 0 and the map — every entry byte-for-byte — is unchanged. -/
theorem delete_correct (m : Map) (key : List Nat)
    (hk : key.length = m.keySize)
    (hwf : ∀ e ∈ m.m, ∀ b ∈ e, b < 256) :
    ((∃ e ∈ m.m, e.take m.keySize = key) →
      m.Delete key = .ok ({ m with m := m.m.eraseP (keyMatch m.keySize key) }, 1) ∧
      (m.deleteStorage key).getLastD [] = List.replicate (m.m.getLastD []).length 0) ∧
    ((∀ e ∈ m.m, e.take m.keySize ≠ key) →
      m.Delete key = .ok (m, 0)) := by
  by_cases hnil : m.m = []
  · constructor
    · rintro ⟨e, he, -⟩
      rw [hnil] at he
      exact absurd he (List.not_mem_nil e)
    · intro _
      simp only [Map.Delete, hk, ne_eq, not_true_eq_false, if_false, hnil, if_true]
  · obtain ⟨es, last, hsplit⟩ : ∃ es last, m.m = es ++ [last] :=
      ⟨m.m.dropLast, m.m.getLast hnil, (List.dropLast_append_getLast hnil).symm⟩
    have hwlast : ∀ b ∈ last, b < 256 := by
      refine hwf last ?_
      rw [hsplit]
      exact List.mem_append_right es (List.mem_cons_self last [])
    have hspec := deleteScan_spec m.keySize key es last hwlast
    constructor
    · intro hex
      have hany : (es ++ [last]).any (keyMatch m.keySize key) = true := by
        rw [List.any_eq_true]
        obtain ⟨e, he, hkey⟩ := hex
        exact ⟨e, by rwa [hsplit] at he, keyMatch_iff.mpr hkey⟩
      rw [if_pos hany] at hspec
      obtain ⟨e0, he0, hkey0⟩ := hex
      have hlenE : ((es ++ [last]).eraseP (keyMatch m.keySize key)).length =
          (es ++ [last]).length - 1 := by
        refine List.length_eraseP_of_mem ?_ (keyMatch_iff.mpr hkey0)
        rwa [hsplit] at he0
      constructor
      · simp only [Map.Delete, hk, ne_eq, not_true_eq_false, if_false, hnil, if_true,
          hsplit, hspec]
        have hlen1 : ((es ++ [last]).eraseP (keyMatch m.keySize key) ++
            [zeroEntry last]).length = (es ++ [last]).length := by
          simp only [List.length_append, List.length_cons, List.length_nil, hlenE]
          have : 1 ≤ (es ++ [last]).length := by
            simp [List.length_append]
          omega
        rw [hlen1]
        have htake : ((es ++ [last]).eraseP (keyMatch m.keySize key) ++
            [zeroEntry last]).take ((es ++ [last]).length - 1) =
            (es ++ [last]).eraseP (keyMatch m.keySize key) := by
          rw [← hlenE]
          exact List.take_left _ _
        rw [htake, if_neg (show ¬ (es ++ [last]) = [] from by simp)]
      · simp only [Map.deleteStorage, hsplit, hspec]
        rw [List.getLastD_concat, List.getLastD_concat, zeroEntry_eq_replicate]
    · intro hnone
      have hany : ¬ (es ++ [last]).any (keyMatch m.keySize key) = true := by
        rw [List.any_eq_true]
        rintro ⟨e, he, hkey⟩
        exact hnone e (by rwa [← hsplit] at he) (keyMatch_iff.mp hkey)
      rw [if_neg hany] at hspec
      simp only [Map.Delete, hk, ne_eq, not_true_eq_false, if_false, hnil, if_true,
        hsplit, hspec]
      rw [Nat.sub_zero, List.take_length]
      rw [← hsplit, if_neg hnil]

/-- Witness for C3 at the repository's own `TestDelete` vector: the middle
entry is removed, order preserved, and the storage's final slot is zeroed. -/
theorem delete_correct_witness :
    Map.Delete ⟨[[90, 90], [165, 90], [90, 90]], 3, 1, 1⟩ [165] =
      .ok (⟨[[90, 90], [90, 90]], 3, 1, 1⟩, 1) ∧
    (Map.deleteStorage ⟨[[90, 90], [165, 90], [90, 90]], 3, 1, 1⟩ [165]).getLastD [] =
      List.replicate 2 0 := by
  have h := (delete_correct ⟨[[90, 90], [165, 90], [90, 90]], 3, 1, 1⟩ [165]
    (by decide) (by decide)).1 (by decide)
  exact ⟨h.1, h.2⟩

/-- Shared step lemma for `Delete` on valid input: the call succeeds, the
key/value sizes and the backing capacity are untouched, the length drops
by the returned 0/1 flag. -/
theorem delete_step (m : Map) (key : List Nat) (hk : key.length = m.keySize) :
    ∃ m1 v, m.Delete key = .ok (m1, v) ∧ m1.keySize = m.keySize ∧
      m1.valSize = m.valSize ∧ m1.mcap = m.mcap ∧ m1.Len + v = m.Len ∧
      (v = 0 ∨ v = 1) := by
  by_cases hnil : m.m = []
  · refine ⟨m, 0, ?_, rfl, rfl, rfl, by simp, Or.inl rfl⟩
    simp [Map.Delete, hk, hnil]
  · refine ⟨{ m with m := ((deleteScan m.keySize key 0 m.m).1.take ((deleteScan m.keySize key 0 m.m).1.length - (deleteScan m.keySize key 0 m.m).2)) },
      (deleteScan m.keySize key 0 m.m).2, ?_, rfl, rfl, rfl, ?_, ?_⟩
    · simp [Map.Delete, hk, hnil]
    · have hlen := deleteScan_length m.keySize key 0 m.m
      have hflag := deleteScan_flag01 m.keySize key 0 m.m (Or.inl rfl)
      have hpos : 0 < m.m.length := List.length_pos.mpr hnil
      simp only [Map.Len, List.length_take]
      omega
    · exact deleteScan_flag01 m.keySize key 0 m.m (Or.inl rfl)

/-- C1 (code bug): `Set` on the spec's own example map
`[{0xA5,0x5A},{0xA5,0x5A}]` with `Set([0xA5],[0xFF])` rewrites the value
region of BOTH matching entries (the loop gates each conditional copy on
that entry's comparison alone, with no AND-NOT of the running flag), so
the result is `[{0xA5,0xFF},{0xA5,0xFF}]` and not the claimed
`[{0xA5,0xFF},{0xA5,0x5A}]` that the repository's own later `TestSet`
vector expects. -/
theorem set_mutates_every_match :
    Map.Set ⟨[[165, 90], [165, 90]], 2, 1, 1⟩ [165] [255] =
      .ok (⟨[[165, 255], [165, 255]], 2, 1, 1⟩, 1) ∧
    [[165, 255], [165, 255]] ≠ [[165, 255], [165, 90]] :=
  ⟨rfl, by decide⟩

/-- C2 (counterexample): a map with one entry and backing capacity 3.
`Delete` of the present key returns 1 yet the resulting capacity is still
3, not 3 − 1: the truncating re-slice `m.m[:len(m.m)-v]` never shrinks the
capacity. -/
theorem delete_capacity_counterexample :
    Map.Delete ⟨[[0, 7]], 3, 1, 1⟩ [0] = .ok (⟨[], 3, 1, 1⟩, 1) ∧
    (⟨[], 3, 1, 1⟩ : Map).mcap ≠ (⟨[[0, 7]], 3, 1, 1⟩ : Map).mcap - 1 :=
  ⟨rfl, by decide⟩

/-- C2 (amended): whatever flag `Delete` returns, the backing capacity is
unchanged — only the logical length is reduced by the flag — so a
subsequent `Add` need not reallocate because of the deletion. -/
theorem delete_capacity_unchanged (m : Map) (key : List Nat)
    (hk : key.length = m.keySize) :
    ∀ (m1 : Map) (v : Nat), m.Delete key = .ok (m1, v) →
      m1.mcap = m.mcap ∧ m1.Len = m.Len - v := by
  intro m1 v h
  obtain ⟨m2, v2, h2, -, -, hcap, hlen, -⟩ := delete_step m key hk
  rw [h2] at h
  injection h with h3
  simp only [Prod.mk.injEq] at h3
  obtain ⟨h4, h5⟩ := h3
  subst h4
  subst h5
  exact ⟨hcap, by omega⟩

/-- Witness for C2's amended claim at the counterexample input:
capacity 3 is preserved and the length drops from 1 to 0. -/
theorem delete_capacity_unchanged_witness :
    (⟨[], 3, 1, 1⟩ : Map).mcap = (⟨[[0, 7]], 3, 1, 1⟩ : Map).mcap ∧
    (⟨[], 3, 1, 1⟩ : Map).Len = (⟨[[0, 7]], 3, 1, 1⟩ : Map).Len - 1 :=
  delete_capacity_unchanged ⟨[[0, 7]], 3, 1, 1⟩ [0] (by decide) ⟨[], 3, 1, 1⟩ 1 rfl

/-- C4: `Contains` returns 1 exactly when some stored entry's key region
equals the key; `Lookup` returns 1 with the value region of the first such
entry (in storage order) copied into the caller buffer, and returns 0 with
the buffer unchanged when no entry matches. -/
theorem contains_lookup_correct (m : Map) (key val : List Nat)
    (hk : key.length = m.keySize) (hv : val.length = m.valSize) :
    (m.Contains key = .ok 1 ↔ ∃ e ∈ m.m, e.take m.keySize = key) ∧
    (∀ e, m.m.find? (keyMatch m.keySize key) = some e →
      m.Lookup key val = .ok (e.drop m.keySize, 1)) ∧
    ((¬ ∃ e ∈ m.m, e.take m.keySize = key) → m.Lookup key val = .ok (val, 0)) := by
  have hc : m.Contains key =
      .ok (if m.m.any (keyMatch m.keySize key) then 1 else 0) := by
    simp only [Map.Contains, hk, ne_eq, not_true_eq_false, if_false, containsScan_zero]
  have hl : m.Lookup key val =
      .ok ((m.m.find? (keyMatch m.keySize key)).elim (val, 0)
        fun e => (e.drop m.keySize, 1)) := by
    simp only [Map.Lookup, hk, hv, ne_eq, not_true_eq_false, if_false, lookupScan_zero]
  refine ⟨?_, ?_, ?_⟩
  · rw [hc]
    by_cases h : m.m.any (keyMatch m.keySize key) = true
    · rw [if_pos h]
      constructor
      · intro _
        rw [List.any_eq_true] at h
        obtain ⟨e, he, hp⟩ := h
        exact ⟨e, he, keyMatch_iff.mp hp⟩
      · intro _; rfl
    · rw [if_neg h]
      constructor
      · intro hcontra
        simp at hcontra
      · intro hex
        exfalso
        apply h
        rw [List.any_eq_true]
        obtain ⟨e, he, hk2⟩ := hex
        exact ⟨e, he, keyMatch_iff.mpr hk2⟩
  · intro e hfind
    rw [hl, hfind]
    rfl
  · intro hnone
    have hfind : m.m.find? (keyMatch m.keySize key) = none := by
      rw [List.find?_eq_none]
      intro x hx
      simp only [keyMatch_iff]
      exact fun hx2 => hnone ⟨x, hx, hx2⟩
    rw [hl, hfind]
    rfl

/-- Witness for C4 at the repository's `TestLookup` vector with duplicate
keys: `Contains` sees the key and `Lookup` returns the first value. -/
theorem contains_lookup_correct_witness :
    Map.Contains ⟨[[165, 17], [165, 34]], 2, 1, 1⟩ [165] = .ok 1 ∧
    Map.Lookup ⟨[[165, 17], [165, 34]], 2, 1, 1⟩ [165] [0] = .ok ([17], 1) := by
  have h := contains_lookup_correct ⟨[[165, 17], [165, 34]], 2, 1, 1⟩ [165] [0]
    (by decide) (by decide)
  exact ⟨h.1.mpr ⟨[165, 17], by decide, by decide⟩, h.2.1 [165, 17] rfl⟩

/-- C9: a `Lookup` that returns 0 leaves the caller's buffer byte-for-byte
unchanged — every conditional copy was gated off. -/
theorem lookup_miss_leaves_val (m : Map) (key val : List Nat)
    (hk : key.length = m.keySize) (hv : val.length = m.valSize) :
    ∀ out : List Nat, m.Lookup key val = .ok (out, 0) → out = val := by
  intro out h
  have hl : m.Lookup key val =
      .ok ((m.m.find? (keyMatch m.keySize key)).elim (val, 0)
        fun e => (e.drop m.keySize, 1)) := by
    simp only [Map.Lookup, hk, hv, ne_eq, not_true_eq_false, if_false, lookupScan_zero]
  rw [hl] at h
  cases hfind : m.m.find? (keyMatch m.keySize key) with
  | none =>
    rw [hfind] at h
    simp only [Option.elim] at h
    injection h with h2
    rw [Prod.ext_iff] at h2
    exact h2.1.symm
  | some e =>
    rw [hfind] at h
    simp only [Option.elim] at h
    injection h with h2
    rw [Prod.ext_iff] at h2
    exact absurd h2.2 one_ne_zero

/-- Witness for C9: a missed lookup on `[{0x00,0x00}]` hands back the
buffer `[7]` exactly as it went in. -/
theorem lookup_miss_leaves_val_witness :
    Map.Lookup ⟨[[0, 0]], 1, 1, 1⟩ [165] [7] = .ok ([7], 0) ∧ ([7] : List Nat) = [7] :=
  ⟨rfl, lookup_miss_leaves_val ⟨[[0, 0]], 1, 1, 1⟩ [165] [7] (by decide) (by decide) [7] rfl⟩

/-- C6: with two or more entries matching `oldKey`, `Replace` rewrites the
key region to `newKey` and the value region to `val` of the first match in
scan order only, and `Rename` rewrites only that entry's key region,
leaving its value region in place; every entry before the first match
(`pre`) and after it (`post`, including all later duplicates) is
byte-for-byte unchanged. -/
theorem replace_rename_first_match_only (m : Map) (oldKey newKey val : List Nat)
    (hok : oldKey.length = m.keySize) (hnk : newKey.length = m.keySize)
    (hval : val.length = m.valSize)
    (pre : List Entry) (e : Entry) (post : List Entry)
    (hsplit : m.m = pre ++ e :: post)
    (hpre : ∀ x ∈ pre, x.take m.keySize ≠ oldKey)
    (he : e.take m.keySize = oldKey)
    (_hdup : 2 ≤ m.m.countP (keyMatch m.keySize oldKey)) :
    m.Replace oldKey newKey val =
      .ok ({ m with m := pre ++ (newKey ++ val) :: post }, 1) ∧
    m.Rename oldKey newKey =
      .ok ({ m with m := pre ++ (newKey ++ e.drop m.keySize) :: post }, 1) := by
  constructor
  · simp only [Map.Replace, hok, hnk, hval, ne_eq, not_true_eq_false, if_false]
    rw [hsplit, replaceScan_first m.keySize oldKey newKey val pre e post hpre he]
  · simp only [Map.Rename, hok, hnk, ne_eq, not_true_eq_false, if_false]
    rw [hsplit, renameScan_first m.keySize oldKey newKey pre e post hpre he]

/-- Witness for C6 at the repository's `TestReplace`/`TestRename` duplicate
vector: only the first of the two matching entries is rewritten. -/
theorem replace_rename_first_match_only_witness :
    Map.Replace ⟨[[165, 90], [165, 90]], 2, 1, 1⟩ [165] [90] [255] =
      .ok (⟨[[90, 255], [165, 90]], 2, 1, 1⟩, 1) ∧
    Map.Rename ⟨[[165, 90], [165, 90]], 2, 1, 1⟩ [165] [90] =
      .ok (⟨[[90, 90], [165, 90]], 2, 1, 1⟩, 1) := by
  have h := replace_rename_first_match_only ⟨[[165, 90], [165, 90]], 2, 1, 1⟩
    [165] [90] [255] (by decide) (by decide) (by decide)
    [] [165, 90] [[165, 90]] rfl (by decide) (by decide) (by decide)
  exact ⟨h.1, h.2⟩

/-- C10: with `keySize = 0` the zero-length key compares equal to every
entry's (empty) key region, so `Contains([])` answers 1 exactly when the
map is non-empty, and the comparison underlying every scan yields 1 at
every entry. -/
theorem zero_key_size_matches_all (m : Map) (hks : m.keySize = 0) :
    m.Contains [] = .ok (if 0 < m.Len then 1 else 0) ∧
    ∀ e ∈ m.m, constantTimeCompare (e.take m.keySize) [] = 1 := by
  have hall : ∀ e : Entry, constantTimeCompare (e.take m.keySize) ([] : List Nat) = 1 := by
    intro e
    rw [hks]
    exact ctCompare_eq_one (List.take_zero e)
  constructor
  · have hklen : ([] : List Nat).length = m.keySize := by rw [hks]; rfl
    simp only [Map.Contains, hklen, ne_eq, not_true_eq_false, if_false,
      containsScan_zero]
    cases hm : m.m with
    | nil => simp [Map.Len, hm]
    | cons e es =>
      have hp : keyMatch m.keySize ([] : List Nat) e = true := by
        rw [keyMatch_iff, hks]
        exact List.take_zero e
      simp [Map.Len, hm, hp]
  · intro e _
    exact hall e

/-- Witness for C10: a one-entry map with `keySize = 0`, `valSize = 2`. -/
theorem zero_key_size_matches_all_witness :
    Map.Contains ⟨[[5, 6]], 1, 0, 2⟩ [] = .ok 1 ∧
    constantTimeCompare (([5, 6] : List Nat).take (0 : Nat)) [] = 1 := by
  have h := zero_key_size_matches_all ⟨[[5, 6]], 1, 0, 2⟩ rfl
  exact ⟨h.1, h.2 [5, 6] (by decide)⟩

/-- C5: for maps of equal length (and matching key/value sizes), every
operation executes identical numbers of constant-time compare and
conditional-copy primitives, whatever the stored bytes or the probed
arguments: `Set`, `Rename` and `Lookup` cost `(n, n)`, `Replace`
`(n, 2n)`, `Contains` `(n, 0)` and `Delete` `(n, n − 1)` (or `(0, 0)` on
an empty map), with `n` the entry count. -/
theorem op_counts_depend_only_on_len (m1 m2 : Map)
    (hlen : m1.Len = m2.Len) (_hks : m1.keySize = m2.keySize)
    (_hvs : m1.valSize = m2.valSize)
    (k1 nk1 v1 k2 nk2 v2 : List Nat)
    (_hk1 : k1.length = m1.keySize) (_hnk1 : nk1.length = m1.keySize)
    (_hv1 : v1.length = m1.valSize)
    (_hk2 : k2.length = m2.keySize) (_hnk2 : nk2.length = m2.keySize)
    (_hv2 : v2.length = m2.valSize) :
    m1.SetOps k1 = m2.SetOps k2 ∧
    m1.ReplaceOps k1 = m2.ReplaceOps k2 ∧
    m1.RenameOps k1 = m2.RenameOps k2 ∧
    m1.ContainsOps k1 = m2.ContainsOps k2 ∧
    m1.LookupOps k1 = m2.LookupOps k2 ∧
    m1.DeleteOps k1 = m2.DeleteOps k2 := by
  have hll : m1.m.length = m2.m.length := hlen
  refine ⟨?_, ?_, ?_, ?_, ?_, ?_⟩
  · rw [Map.SetOps, Map.SetOps, setScanOps_eq, setScanOps_eq, hll]
  · rw [Map.ReplaceOps, Map.ReplaceOps, replaceScanOps_eq, replaceScanOps_eq, hll]
  · rw [Map.RenameOps, Map.RenameOps, renameScanOps_eq, renameScanOps_eq, hll]
  · rw [Map.ContainsOps, Map.ContainsOps, containsScanOps_eq, containsScanOps_eq, hll]
  · rw [Map.LookupOps, Map.LookupOps, lookupScanOps_eq, lookupScanOps_eq, hll]
  · by_cases hnil : m1.m = []
    · have hnil2 : m2.m = [] := by
        rw [← List.length_eq_zero, ← hll, List.length_eq_zero]
        exact hnil
      rw [Map.DeleteOps, Map.DeleteOps, if_pos hnil, if_pos hnil2]
    · have hnil2 : m2.m ≠ [] := by
        rw [ne_eq, ← List.length_eq_zero, ← hll, List.length_eq_zero]
        exact hnil
      rw [Map.DeleteOps, Map.DeleteOps, if_neg hnil, if_neg hnil2,
        deleteScanOps_eq _ _ _ _ hnil, deleteScanOps_eq _ _ _ _ hnil2, hll]

/-- Witness for C5: two one-entry maps with different contents, keys, and
capacities execute the same primitive counts for `Set` and `Delete`. -/
theorem op_counts_depend_only_on_len_witness :
    Map.SetOps ⟨[[1, 2]], 1, 1, 1⟩ [3] = Map.SetOps ⟨[[9, 9]], 5, 1, 1⟩ [4] ∧
    Map.DeleteOps ⟨[[1, 2]], 1, 1, 1⟩ [3] = Map.DeleteOps ⟨[[9, 9]], 5, 1, 1⟩ [4] := by
  have h := op_counts_depend_only_on_len ⟨[[1, 2]], 1, 1, 1⟩ ⟨[[9, 9]], 5, 1, 1⟩
    rfl rfl rfl [3] [3] [3] [4] [4] [4]
    (by decide) (by decide) (by decide) (by decide) (by decide) (by decide)
  exact ⟨h.1, h.2.2.2.2.2⟩

/-- C8: every operation checks each byte-slice argument's length against
the configured size before touching any entry, and fails with the error
naming the offending argument (the checks run in source order: key, then
val; oldKey, then newKey, then val). On such a failure the map is left
untouched, as the `applyOp` equations record. -/
theorem invalid_size_errors (m : Map) (key val oldKey newKey : List Nat) :
    (key.length ≠ m.keySize →
      m.Add key val = .error .key ∧
      m.Set key val = .error .key ∧
      m.Contains key = .error .key ∧
      m.Lookup key val = .error .key ∧
      m.Delete key = .error .key ∧
      applyOp m (.add key val) = m ∧
      applyOp m (.set key val) = m ∧
      applyOp m (.delete key) = m) ∧
    (key.length = m.keySize → val.length ≠ m.valSize →
      m.Add key val = .error .val ∧
      m.Set key val = .error .val ∧
      m.Lookup key val = .error .val ∧
      applyOp m (.add key val) = m ∧
      applyOp m (.set key val) = m) ∧
    (oldKey.length ≠ m.keySize →
      m.Replace oldKey newKey val = .error .oldKey ∧
      m.Rename oldKey newKey = .error .oldKey ∧
      applyOp m (.replace oldKey newKey val) = m ∧
      applyOp m (.rename oldKey newKey) = m) ∧
    (oldKey.length = m.keySize → newKey.length ≠ m.keySize →
      m.Replace oldKey newKey val = .error .newKey ∧
      m.Rename oldKey newKey = .error .newKey ∧
      applyOp m (.replace oldKey newKey val) = m ∧
      applyOp m (.rename oldKey newKey) = m) ∧
    (oldKey.length = m.keySize → newKey.length = m.keySize →
      val.length ≠ m.valSize →
      m.Replace oldKey newKey val = .error .val ∧
      applyOp m (.replace oldKey newKey val) = m) := by
  refine ⟨?_, ?_, ?_, ?_, ?_⟩
  · intro h
    have ha : m.Add key val = .error .key := by simp [Map.Add, h]
    have hs : m.Set key val = .error .key := by simp [Map.Set, h]
    have hd : m.Delete key = .error .key := by simp [Map.Delete, h]
    refine ⟨ha, hs, by simp [Map.Contains, h], by simp [Map.Lookup, h], hd,
      ?_, ?_, ?_⟩
    · simp [applyOp, ha]
    · simp [applyOp, hs]
    · simp [applyOp, hd]
  · intro h1 h2
    have ha : m.Add key val = .error .val := by simp [Map.Add, h1, h2]
    have hs : m.Set key val = .error .val := by simp [Map.Set, h1, h2]
    refine ⟨ha, hs, by simp [Map.Lookup, h1, h2], ?_, ?_⟩
    · simp [applyOp, ha]
    · simp [applyOp, hs]
  · intro h
    have hr : m.Replace oldKey newKey val = .error .oldKey := by
      simp [Map.Replace, h]
    have hn : m.Rename oldKey newKey = .error .oldKey := by
      simp [Map.Rename, h]
    refine ⟨hr, hn, ?_, ?_⟩
    · simp [applyOp, hr]
    · simp [applyOp, hn]
  · intro h1 h2
    have hr : m.Replace oldKey newKey val = .error .newKey := by
      simp [Map.Replace, h1, h2]
    have hn : m.Rename oldKey newKey = .error .newKey := by
      simp [Map.Rename, h1, h2]
    refine ⟨hr, hn, ?_, ?_⟩
    · simp [applyOp, hr]
    · simp [applyOp, hn]
  · intro h1 h2 h3
    have hr : m.Replace oldKey newKey val = .error .val := by
      simp [Map.Replace, h1, h2, h3]
    exact ⟨hr, by simp [applyOp, hr]⟩

/-- Witness for C8: an oversized key makes `Add` fail with the key error,
and an oversized `newKey` makes `Replace` fail naming `newKey`. -/
theorem invalid_size_errors_witness :
    Map.Add (New 1 1) [1, 2] [3] = .error .key ∧
    Map.Replace (New 1 1) [1] [2, 2] [3] = .error .newKey := by
  have h := invalid_size_errors (New 1 1) [1, 2] [3] [1] [2, 2]
  exact ⟨(h.1 (by decide)).1, (h.2.2.2.1 (by decide) (by decide)).1⟩

/-- Shared accounting lemma: over any trace of valid calls, the final
length plus the successful deletions equals the initial length plus the
`Add` calls (all other operations leave the entry count unchanged). -/
theorem runOps_len : ∀ (ops : List Op) (m : Map),
    (∀ op ∈ ops, op.Valid m.keySize m.valSize) →
    (runOps m ops).Len + countSuccDeletes m ops = m.Len + countAdds ops := by
  intro ops
  induction ops with
  | nil => intro m _; rfl
  | cons op ops ih =>
    intro m hall
    have hv := hall op (List.mem_cons_self op ops)
    have hrest : ∀ op2 ∈ ops, op2.Valid m.keySize m.valSize :=
      fun op2 h2 => hall op2 (List.mem_cons_of_mem op h2)
    cases op with
    | add k v =>
      obtain ⟨h1, h2⟩ := hv
      have hstep : applyOp m (.add k v) = { m with m := m.m ++ [k ++ v], mcap := if m.m.length < m.mcap then m.mcap else growCap m.mcap } := by
        simp [applyOp, Map.Add, h1, h2]
      have ihm := ih (applyOp m (.add k v))
        (fun op2 h2 => by rw [hstep]; exact hrest op2 h2)
      have hlen : (applyOp m (.add k v)).Len = m.Len + 1 := by
        rw [hstep]; simp [Map.Len]
      simp only [runOps, countSuccDeletes, countAdds]
      omega
    | set k v =>
      obtain ⟨h1, h2⟩ := hv
      have hstep : applyOp m (.set k v) =
          { m with m := (setScan m.keySize k v 0 m.m).1 } := by
        simp [applyOp, Map.Set, h1, h2]
      have ihm := ih (applyOp m (.set k v))
        (fun op2 h2 => by rw [hstep]; exact hrest op2 h2)
      have hlen : (applyOp m (.set k v)).Len = m.Len := by
        rw [hstep]; simp [Map.Len, setScan_length]
      simp only [runOps, countSuccDeletes, countAdds]
      omega
    | replace ok nk v =>
      obtain ⟨h1, h2, h3⟩ := hv
      have hstep : applyOp m (.replace ok nk v) =
          { m with m := (replaceScan m.keySize ok nk v 0 m.m).1 } := by
        simp [applyOp, Map.Replace, h1, h2, h3]
      have ihm := ih (applyOp m (.replace ok nk v))
        (fun op2 h2 => by rw [hstep]; exact hrest op2 h2)
      have hlen : (applyOp m (.replace ok nk v)).Len = m.Len := by
        rw [hstep]; simp [Map.Len, replaceScan_length]
      simp only [runOps, countSuccDeletes, countAdds]
      omega
    | rename ok nk =>
      obtain ⟨h1, h2⟩ := hv
      have hstep : applyOp m (.rename ok nk) =
          { m with m := (renameScan m.keySize ok nk 0 m.m).1 } := by
        simp [applyOp, Map.Rename, h1, h2]
      have ihm := ih (applyOp m (.rename ok nk))
        (fun op2 h2 => by rw [hstep]; exact hrest op2 h2)
      have hlen : (applyOp m (.rename ok nk)).Len = m.Len := by
        rw [hstep]; simp [Map.Len, renameScan_length]
      simp only [runOps, countSuccDeletes, countAdds]
      omega
    | contains k =>
      have hstep : applyOp m (.contains k) = m := rfl
      have ihm := ih m hrest
      simp only [runOps, countSuccDeletes, countAdds, hstep]
      omega
    | lookup k v =>
      have hstep : applyOp m (.lookup k v) = m := rfl
      have ihm := ih m hrest
      simp only [runOps, countSuccDeletes, countAdds, hstep]
      omega
    | delete k =>
      obtain ⟨m1, v, hd, hks1, hvs1, -, hlen1, -⟩ := delete_step m k hv
      have hstep : applyOp m (.delete k) = m1 := by
        simp [applyOp, hd]
      have ihm := ih m1 (fun op2 h2 => by rw [hks1, hvs1]; exact hrest op2 h2)
      simp only [runOps, countSuccDeletes, countAdds, hstep, hd]
      omega

/-- C7: starting from `New` or `NewWithCapacity`, after any finite trace
of valid calls the length equals the number of `Add` calls minus the
number of `Delete` calls that returned 1; traces may interleave the other
operations freely, none of which changes the count. -/
theorem size_tracking (ks vs cap : Nat) (ops : List Op)
    (hvalid : ∀ op ∈ ops, op.Valid ks vs) :
    (runOps (New ks vs) ops).Len =
      countAdds ops - countSuccDeletes (New ks vs) ops ∧
    countSuccDeletes (New ks vs) ops ≤ countAdds ops ∧
    (runOps (NewWithCapacity ks vs cap) ops).Len =
      countAdds ops - countSuccDeletes (NewWithCapacity ks vs cap) ops ∧
    countSuccDeletes (NewWithCapacity ks vs cap) ops ≤ countAdds ops := by
  have h1 := runOps_len ops (New ks vs) hvalid
  have h2 := runOps_len ops (NewWithCapacity ks vs cap) hvalid
  have hz1 : (New ks vs).Len = 0 := rfl
  have hz2 : (NewWithCapacity ks vs cap).Len = 0 := rfl
  exact ⟨by omega, by omega, by omega, by omega⟩

/-- Witness for C7: one `Add` then one successful `Delete` from `New 1 1`
leaves the count at 1 − 1 = 0. -/
theorem size_tracking_witness :
    (runOps (New 1 1) [Op.add [1] [2], Op.delete [1]]).Len =
      countAdds [Op.add [1] [2], Op.delete [1]] -
        countSuccDeletes (New 1 1) [Op.add [1] [2], Op.delete [1]] ∧
    countSuccDeletes (New 1 1) [Op.add [1] [2], Op.delete [1]] ≤
      countAdds [Op.add [1] [2], Op.delete [1]] := by
  have h := size_tracking 1 1 0 [Op.add [1] [2], Op.delete [1]] ?hv
  case hv =>
    intro op hop
    simp only [List.mem_cons, List.not_mem_nil, or_false] at hop
    rcases hop with rfl | rfl
    · exact ⟨rfl, rfl⟩
    · rfl
  exact ⟨h.1, h.2.1⟩

end Ctmap
